import Mathlib

/-!
Shallow embedding of the psnapshot queue-rotation core.

Timestamps (Python `datetime.datetime`, second resolution) are modelled as
integers counting seconds; `datetime.timedelta(days = d)` becomes `d * 86400`
seconds, which preserves subtraction and all order comparisons used by the
code.  Filesystem side effects (`Snapshot.move`, `Snapshot.delete`) are made
explicit: `move` rewrites the in-memory queue name, and deletion is reported
in a result list instead of mutating global state.  Fallible operations
return `Option`.
-/

/-- In-memory snapshot handle: `queue_name` and `time` parsed from the
directory name (`psnapshot/snapshot.py`, class `Snapshot`). -/
structure Snap where
  queue_name : String
  time : Int
deriving DecidableEq, Repr

/-- `Snapshot.move`: renaming to the target queue rewrites the in-memory
queue name (the on-disk rename is the suppressed side effect). -/
def Snap.move (s : Snap) (queueName : String) : Snap :=
  { s with queue_name := queueName }

/-- One retention tier (`psnapshot/snapshot.py`, class `Queue`): `delta` is
the number of days between two accepted snapshots, `length` the maximum
number of snapshots kept, `snapshots` the current content, newest first. -/
structure Queue where
  name : String
  delta : Nat
  length : Nat
  snapshots : List Snap
deriving DecidableEq, Repr

/-- `self.timedelta = datetime.timedelta(days=self.delta)`, in seconds. -/
def Queue.timedelta (q : Queue) : Int :=
  (q.delta : Int) * 86400

/-- The acceptance condition of `Queue.push_snapshot`:
`not self.snapshots or (snapshot.time - self.snapshots[0].time >= self.timedelta)`. -/
def Queue.accepts (q : Queue) (s : Snap) : Bool :=
  match q.snapshots.head? with
  | none => true
  | some newest => decide (q.timedelta ≤ s.time - newest.time)

/-- `Queue.push_snapshot`: accept (insert at the front, move to this queue)
or reject (delete), then pop everything beyond `length` from the tail.
Result: (updated queue, popped snapshots, deleted snapshots). -/
def Queue.push_snapshot (q : Queue) (s : Snap) : Queue × List Snap × List Snap :=
  let step : List Snap × List Snap :=
    if q.accepts s then (s.move q.name :: q.snapshots, []) else (q.snapshots, [s])
  ({ q with snapshots := step.1.take q.length }, step.1.drop q.length, step.2)

/-- `Queue.push_snapshots`: the loop `for snapshot in reversed(snapshots):
popped[:0] = self.push_snapshot(snapshot)`.  Deletions of the individual
pushes are accumulated in call order. -/
def Queue.push_snapshots (q : Queue) (batch : List Snap) : Queue × List Snap × List Snap :=
  batch.reverse.foldl
    (fun acc s =>
      let r := acc.1.push_snapshot s
      (r.1, r.2.1 ++ acc.2.1, acc.2.2 ++ r.2.2))
    (q, [], [])

/-- Modelled from the spec (§4.2, claim C5's alternative characterization):
pushing a list of snapshots one by one, front of the list first, each
call's evictions accumulated at the front of the result. -/
def Queue.push_seq (q : Queue) : List Snap → Queue × List Snap × List Snap
  | [] => (q, [], [])
  | s :: rest =>
    let r := q.push_snapshot s
    let rr := r.1.push_seq rest
    (rr.1, rr.2.1 ++ r.2.1, r.2.2 ++ rr.2.2)

/-- Modelled from the spec (§4.2): `pushSnapshots` as the fold of
`pushSnapshot` over the reversed batch. -/
def Queue.push_snapshots_spec (q : Queue) (batch : List Snap) : Queue × List Snap × List Snap :=
  q.push_seq batch.reverse

lemma push_snapshots_foldl (l : List Snap) :
    ∀ (q : Queue) (accPop accDel : List Snap),
      l.foldl
        (fun acc s =>
          let r := Queue.push_snapshot acc.1 s
          (r.1, r.2.1 ++ acc.2.1, acc.2.2 ++ r.2.2))
        (q, accPop, accDel)
      = ((q.push_seq l).1, (q.push_seq l).2.1 ++ accPop, accDel ++ (q.push_seq l).2.2) := by
  induction l with
  | nil => intro q accPop accDel; simp [Queue.push_seq]
  | cons s rest ih =>
    intro q accPop accDel
    simp only [List.foldl_cons, Queue.push_seq]
    rw [ih]
    simp [List.append_assoc]

/-- `push_snapshots` processes the reversed batch front-to-back. -/
lemma push_snapshots_eq_push_seq (q : Queue) (batch : List Snap) :
    q.push_snapshots batch = q.push_seq batch.reverse := by
  unfold Queue.push_snapshots
  rw [push_snapshots_foldl]
  simp

/-- Claim C1: a snapshot presented via `push_snapshot` is accepted — inserted
at the front of the queue's snapshots (before tail cleanup splits the list
into kept and popped parts) with its queue name moved to the queue's name,
and not deleted — if and only if the queue is empty or the snapshot's
timestamp minus the newest member's timestamp is at least the queue's
interval; in particular a difference exactly equal to the interval
(`s.time - newest.time = q.timedelta`) satisfies the right-hand side, so the
boundary is inclusive. -/
theorem push_snapshot_accept_iff (q : Queue) (s : Snap) :
    ((q.push_snapshot s).2.2 = [] ∧
      (q.push_snapshot s).1.snapshots ++ (q.push_snapshot s).2.1
        = s.move q.name :: q.snapshots)
    ↔ (q.snapshots = [] ∨
        ∃ newest, q.snapshots.head? = some newest ∧ q.timedelta ≤ s.time - newest.time) := by
  constructor
  · intro ⟨hdel, _⟩
    cases hacc : q.accepts s with
    | true =>
      unfold Queue.accepts at hacc
      cases hsnap : q.snapshots.head? with
      | none => exact Or.inl (List.head?_eq_none_iff.mp hsnap)
      | some newest =>
        rw [hsnap] at hacc
        exact Or.inr ⟨newest, rfl, of_decide_eq_true hacc⟩
    | false =>
      exfalso
      unfold Queue.push_snapshot at hdel
      simp [hacc] at hdel
  · intro hcond
    have hacc : q.accepts s = true := by
      unfold Queue.accepts
      rcases hcond with hempty | ⟨newest, hhead, hle⟩
      · rw [hempty]; rfl
      · rw [hhead]; exact decide_eq_true hle
    unfold Queue.push_snapshot
    simp [hacc, List.take_append_drop]

/-- Strictly descending by timestamp, newest first (the queue ordering
invariant of spec §3). -/
def sorted_desc : List Snap → Bool
  | [] => true
  | a :: rest => rest.all (fun b => decide (b.time < a.time)) && sorted_desc rest

lemma sorted_desc_take (l : List Snap) (n : Nat) (h : sorted_desc l = true) :
    sorted_desc (l.take n) = true := by
  induction l generalizing n with
  | nil => simp [List.take_nil, sorted_desc]
  | cons a rest ih =>
    cases n with
    | zero => simp [sorted_desc]
    | succ m =>
      simp only [List.take_succ_cons, sorted_desc, Bool.and_eq_true] at h ⊢
      refine ⟨?_, ih m h.2⟩
      rw [List.all_eq_true] at h ⊢
      intro b hb
      exact h.1 b (List.take_subset m rest hb)

/-- One `push_snapshot` preserves the queue invariant when the interval is
positive; the result length is bounded by the capacity unconditionally. -/
lemma push_snapshot_invariant (q : Queue) (s : Snap)
    (hδ : 0 < q.delta) (hs : sorted_desc q.snapshots = true) :
    sorted_desc (q.push_snapshot s).1.snapshots = true ∧
      (q.push_snapshot s).1.snapshots.length ≤ q.length := by
  unfold Queue.push_snapshot
  cases hacc : q.accepts s with
  | false =>
    refine ⟨sorted_desc_take _ _ hs, ?_⟩
    simp
  | true =>
    simp only [hacc]
    constructor
    · apply sorted_desc_take
      cases hsnap : q.snapshots with
      | nil => simp [sorted_desc, Snap.move]
      | cons newest rest =>
        unfold Queue.accepts at hacc
        rw [hsnap] at hacc
        simp only [List.head?_cons] at hacc
        have hlt : newest.time < s.time := by
          have hle := of_decide_eq_true hacc
          unfold Queue.timedelta at hle
          have : (86400 : Int) ≤ (q.delta : Int) * 86400 := by
            have : (1 : Int) ≤ (q.delta : Int) := by exact_mod_cast hδ
            nlinarith
          omega
        rw [hsnap] at hs
        simp only [sorted_desc, Bool.and_eq_true, List.all_eq_true] at hs ⊢
        refine ⟨?_, hs⟩
        intro b hb
        rcases List.mem_cons.mp hb with rfl | hb2
        · exact decide_eq_true hlt
        · have hbtime : b.time < newest.time := of_decide_eq_true (hs.1 b hb2)
          have hbs : b.time < s.time := by omega
          exact decide_eq_true hbs
    · simp

/-- `push_seq` preserves the invariant (sorted, and length within capacity)
whenever the interval is positive; the queue's `name`, `delta` and `length`
fields are untouched. -/
lemma push_seq_invariant (l : List Snap) : ∀ (q : Queue),
    0 < q.delta → sorted_desc q.snapshots = true → q.snapshots.length ≤ q.length →
    (sorted_desc (q.push_seq l).1.snapshots = true ∧
      (q.push_seq l).1.snapshots.length ≤ q.length ∧
      (q.push_seq l).1.delta = q.delta ∧ (q.push_seq l).1.length = q.length ∧
      (q.push_seq l).1.name = q.name) := by
  induction l with
  | nil => intro q hδ hs hlen; exact ⟨hs, hlen, rfl, rfl, rfl⟩
  | cons s rest ih =>
    intro q hδ hs hlen
    simp only [Queue.push_seq]
    have hstep := push_snapshot_invariant q s hδ hs
    have hfields : (q.push_snapshot s).1.delta = q.delta ∧
        (q.push_snapshot s).1.length = q.length ∧ (q.push_snapshot s).1.name = q.name := by
      unfold Queue.push_snapshot; exact ⟨rfl, rfl, rfl⟩
    have := ih (q.push_snapshot s).1 (hfields.1 ▸ hδ) hstep.1 (hfields.2.1 ▸ hstep.2)
    exact ⟨this.1, hfields.2.1 ▸ this.2.1, hfields.1 ▸ this.2.2.1,
      hfields.2.1 ▸ this.2.2.2.1, hfields.2.2 ▸ this.2.2.2.2⟩

/-- Claim C2 (amended): provided the queue's interval is positive and the
queue satisfies the invariant before the call (strictly descending, length
at most capacity), then after `push_snapshot` as well as after
`push_snapshots` the snapshots list has length at most the capacity and is
strictly descending by timestamp (in particular no two entries share a
timestamp).  The positivity proviso is forced: with a zero interval a
snapshot whose timestamp equals the newest member's is accepted, see the
counterexample. -/
theorem push_invariant_preserved (q : Queue) (s : Snap) (batch : List Snap)
    (hδ : 0 < q.delta) (hs : sorted_desc q.snapshots = true)
    (hlen : q.snapshots.length ≤ q.length) :
    (sorted_desc (q.push_snapshot s).1.snapshots = true ∧
      (q.push_snapshot s).1.snapshots.length ≤ q.length) ∧
    (sorted_desc (q.push_snapshots batch).1.snapshots = true ∧
      (q.push_snapshots batch).1.snapshots.length ≤ q.length) := by
  refine ⟨push_snapshot_invariant q s hδ hs, ?_⟩
  rw [push_snapshots_eq_push_seq]
  have := push_seq_invariant batch.reverse q hδ hs hlen
  exact ⟨this.1, this.2.1⟩

/-- Witness for claim C2's amended theorem at a concrete input. -/
theorem push_invariant_preserved_witness :
    (sorted_desc ((Queue.mk "daily" 1 7 [⟨"daily", 86400⟩]).push_snapshots
        [⟨"new", 2 * 86400⟩]).1.snapshots = true ∧
      ((Queue.mk "daily" 1 7 [⟨"daily", 86400⟩]).push_snapshots
        [⟨"new", 2 * 86400⟩]).1.snapshots.length ≤ 7) :=
  (push_invariant_preserved (Queue.mk "daily" 1 7 [⟨"daily", 86400⟩])
    ⟨"new", 2 * 86400⟩ [⟨"new", 2 * 86400⟩]
    (by decide) (by decide) (by decide)).2

/-- Counterexample to claim C2 as stated: a queue whose interval is zero
(such as produced by the textual spec `q[2]+0`) accepts a snapshot whose
timestamp equals the newest member's, so after two pushes of the same
timestamp the list is not strictly descending — two entries share a
timestamp. -/
theorem push_invariant_counterexample :
    (((Queue.mk "q" 0 2 []).push_snapshot ⟨"q", 0⟩).1.push_snapshot ⟨"q", 0⟩).1.snapshots
        = [⟨"q", 0⟩, ⟨"q", 0⟩] ∧
    sorted_desc (((Queue.mk "q" 0 2 []).push_snapshot ⟨"q", 0⟩).1.push_snapshot
        ⟨"q", 0⟩).1.snapshots = false := by
  decide

/-- Claim C3 (amended): provided the queue holds at most `length` (capacity)
snapshots — as it does in every state produced by the push operations — a
snapshot whose timestamp minus the newest member's timestamp is strictly
below the interval is rejected: it is deleted, the queue is unchanged and no
evictions are returned.  The capacity proviso is forced: discovery can
populate a queue beyond its capacity, and then even a rejecting push pops
the tail (see the counterexample). -/
theorem push_snapshot_reject (q : Queue) (s : Snap) (newest : Snap)
    (hhead : q.snapshots.head? = some newest)
    (hlt : s.time - newest.time < q.timedelta)
    (hlen : q.snapshots.length ≤ q.length) :
    q.push_snapshot s = (q, [], [s]) := by
  have hacc : q.accepts s = false := by
    unfold Queue.accepts
    rw [hhead]
    exact decide_eq_false (by omega)
  unfold Queue.push_snapshot
  simp only [hacc, Bool.false_eq_true, if_neg, not_false_iff]
  rw [List.take_of_length_le hlen, List.drop_eq_nil_of_le hlen]

/-- Witness for claim C3's amended theorem at a concrete input. -/
theorem push_snapshot_reject_witness :
    (Queue.mk "daily" 1 7 [⟨"daily", 0⟩]).push_snapshot ⟨"daily", 100⟩
      = (Queue.mk "daily" 1 7 [⟨"daily", 0⟩], [], [⟨"daily", 100⟩]) :=
  push_snapshot_reject (Queue.mk "daily" 1 7 [⟨"daily", 0⟩]) ⟨"daily", 100⟩
    ⟨"daily", 0⟩ (by decide) (by decide) (by decide)

/-- Counterexample to claim C3 as stated: an over-capacity queue (capacity 1
holding two snapshots, as discovery can produce) still changes and still
returns an eviction when the pushed snapshot is rejected. -/
theorem push_snapshot_reject_counterexample :
    ((Queue.mk "q" 1 1 [⟨"q", 2 * 86400⟩, ⟨"q", 0⟩]).push_snapshot
        ⟨"q", 2 * 86400⟩).2.2 = [⟨"q", 2 * 86400⟩] ∧
    ((Queue.mk "q" 1 1 [⟨"q", 2 * 86400⟩, ⟨"q", 0⟩]).push_snapshot
        ⟨"q", 2 * 86400⟩).2.1 = [⟨"q", 0⟩] ∧
    ((Queue.mk "q" 1 1 [⟨"q", 2 * 86400⟩, ⟨"q", 0⟩]).push_snapshot
        ⟨"q", 2 * 86400⟩).1.snapshots = [⟨"q", 2 * 86400⟩] := by
  decide

/-- Claim C5: `push_snapshots` coincides with its specification — the fold
of `push_snapshot` over the reversed batch (elements pushed oldest-first),
each call's evictions accumulated at the front of the result, so the
concatenated eviction list keeps the oldest evictions at its back. -/
theorem push_snapshots_eq_spec (q : Queue) (batch : List Snap) :
    q.push_snapshots batch = q.push_snapshots_spec batch := by
  rw [push_snapshots_eq_push_seq]
  rfl

lemma drop_take_drop (k n : Nat) (hk : k ≤ n) (l : List Snap) :
    (l.take n).drop k ++ l.drop n = l.drop k := by
  conv_rhs => rw [← List.take_append_drop n l]
  rw [List.drop_append_eq_append_drop]
  congr 1
  rcases Nat.le_total n l.length with h | h
  · rw [List.length_take, Nat.min_eq_left h, Nat.sub_eq_zero_of_le hk, List.drop_zero]
  · rw [List.drop_eq_nil_of_le h, List.drop_nil]

lemma take_append_take (n : Nat) (a b : List Snap) :
    (a ++ b.take n).take n = (a ++ b).take n := by
  rw [List.take_append_eq_append_take, List.take_append_eq_append_take, List.take_take,
    Nat.min_eq_left (Nat.sub_le n a.length)]

lemma drop_append_take (n : Nat) (a b : List Snap) :
    (a ++ b.take n).drop n ++ b.drop n = (a ++ b).drop n := by
  rw [List.drop_append_eq_append_drop, List.drop_append_eq_append_drop, List.append_assoc]
  congr 1
  exact drop_take_drop (n - a.length) n (Nat.sub_le n a.length) b

/-- A sequence of snapshots is individually acceptable: pushing it
front-to-back, every element satisfies the acceptance condition of the
queue state it is presented to. -/
def Queue.accepts_seq (q : Queue) : List Snap → Bool
  | [] => true
  | s :: rest => q.accepts s && ((q.push_snapshot s).1.accepts_seq rest)

/-- When every element of the processed sequence is accepted and the queue
starts within capacity, the final queue content is the first `length`
elements and the accumulated evictions the remainder of the combined list
(moved new snapshots, most recently pushed first, then the old content). -/
lemma push_seq_all_accepted (l : List Snap) : ∀ q : Queue,
    q.snapshots.length ≤ q.length → q.accepts_seq l = true →
    (q.push_seq l).1.snapshots
        = (l.reverse.map (fun s => s.move q.name) ++ q.snapshots).take q.length ∧
    (q.push_seq l).2.1
        = (l.reverse.map (fun s => s.move q.name) ++ q.snapshots).drop q.length := by
  induction l with
  | nil =>
    intro q hlen _
    simp [Queue.push_seq, List.take_of_length_le hlen, List.drop_eq_nil_of_le hlen]
  | cons s rest ih =>
    intro q hlen hacc
    simp only [Queue.accepts_seq, Bool.and_eq_true] at hacc
    have hps : q.push_snapshot s =
        ({ q with snapshots := (s.move q.name :: q.snapshots).take q.length },
         (s.move q.name :: q.snapshots).drop q.length, []) := by
      unfold Queue.push_snapshot
      simp [hacc.1]
    have hacc2 := hacc.2
    rw [hps] at hacc2
    have ihres := ih { q with snapshots := (s.move q.name :: q.snapshots).take q.length }
      (by simp) hacc2
    simp only [Queue.push_seq, hps]
    constructor
    · rw [ihres.1]
      simp only [List.reverse_cons, List.map_append, List.map_cons, List.map_nil]
      rw [take_append_take]
      simp [List.append_assoc]
    · rw [ihres.2]
      simp only [List.reverse_cons, List.map_append, List.map_cons, List.map_nil]
      rw [drop_append_take]
      simp [List.append_assoc]

/-- Claim C4 (amended): for every queue currently within capacity
(`L <= C`), pushing a batch of `N` individually acceptable snapshots
(oldest-last) yields exactly `max(0, L + N - C)` evicted snapshots, namely
the oldest tail of the combined content: the eviction list equals
`(moved batch ++ previous snapshots).drop C`, so the oldest snapshots are
the ones evicted and the returned list keeps the batch's oldest-last order.
The capacity proviso is forced: an over-capacity queue receiving an empty
batch returns no evictions although `L + 0 - C > 0` (see counterexample). -/
theorem push_snapshots_eviction_count (q : Queue) (batch : List Snap)
    (hlen : q.snapshots.length ≤ q.length)
    (hacc : q.accepts_seq batch.reverse = true) :
    (q.push_snapshots batch).2.1
        = (batch.map (fun s => s.move q.name) ++ q.snapshots).drop q.length ∧
    ((q.push_snapshots batch).2.1.length : Int)
        = max 0 ((batch.length : Int) + q.snapshots.length - q.length) := by
  have h := push_seq_all_accepted batch.reverse q hlen hacc
  rw [List.reverse_reverse] at h
  rw [push_snapshots_eq_push_seq]
  refine ⟨h.2, ?_⟩
  rw [h.2, List.length_drop]
  simp only [List.length_append, List.length_map]
  omega

/-- Witness for claim C4's amended theorem at a concrete input: capacity 1,
empty queue, two acceptable snapshots one day apart, one eviction. -/
theorem push_snapshots_eviction_count_witness :
    ((Queue.mk "daily" 1 1 []).push_snapshots [⟨"a", 86400⟩, ⟨"b", 0⟩]).2.1
        = [Snap.mk "daily" 0] ∧
    ((((Queue.mk "daily" 1 1 []).push_snapshots
        [⟨"a", 86400⟩, ⟨"b", 0⟩]).2.1.length : Int) = max 0 ((2 : Int) + 0 - 1)) := by
  have h := push_snapshots_eviction_count (Queue.mk "daily" 1 1 [])
    [⟨"a", 86400⟩, ⟨"b", 0⟩] (by decide) (by decide)
  exact ⟨by rw [h.1]; decide, h.2⟩

/-- Counterexample to claim C4 as stated: a queue discovered over capacity
(two snapshots, capacity 1) receiving an empty batch — all of whose
elements are vacuously acceptable — returns zero evictions although
`max(0, L + N - C) = max(0, 2 + 0 - 1) = 1`. -/
theorem push_snapshots_eviction_counterexample :
    (Queue.mk "q" 1 1 [⟨"q", 86400⟩, ⟨"q", 0⟩]).accepts_seq (List.reverse []) = true ∧
    (((Queue.mk "q" 1 1 [⟨"q", 86400⟩, ⟨"q", 0⟩]).push_snapshots
        ([] : List Snap)).2.1.length : Int) = 0 ∧
    ¬ ((0 : Int)
        = max 0 ((([] : List Snap).length : Int)
            + ((Queue.mk "q" 1 1 [⟨"q", 86400⟩, ⟨"q", 0⟩]).snapshots.length : Int)
            - ((Queue.mk "q" 1 1 [⟨"q", 86400⟩, ⟨"q", 0⟩]).length : Int))) := by
  decide

/-- The multiset of timestamps of a list of snapshots (snapshot identity on
disk is queue name plus timestamp; `move` keeps the timestamp). -/
def times_of (l : List Snap) : Multiset Int :=
  (l.map (fun s => s.time) : List Int)

lemma times_of_append (a b : List Snap) : times_of (a ++ b) = times_of a + times_of b := by
  simp only [times_of, List.map_append]
  exact (Multiset.coe_add _ _).symm

lemma times_of_cons (a : Snap) (l : List Snap) :
    times_of (a :: l) = times_of [a] + times_of l := by
  rw [show a :: l = [a] ++ l from rfl, times_of_append]

/-- One `push_snapshot` conserves timestamps: kept + popped + deleted is the
pushed snapshot plus the previous content. -/
lemma push_snapshot_times (q : Queue) (s : Snap) :
    times_of (q.push_snapshot s).1.snapshots + times_of (q.push_snapshot s).2.1
      + times_of (q.push_snapshot s).2.2
    = times_of [s] + times_of q.snapshots := by
  cases hacc : q.accepts s with
  | true =>
    have hps : q.push_snapshot s =
        ({ q with snapshots := (s.move q.name :: q.snapshots).take q.length },
         (s.move q.name :: q.snapshots).drop q.length, []) := by
      unfold Queue.push_snapshot
      simp [hacc]
    rw [hps]
    have hnil : times_of [] = 0 := rfl
    rw [hnil, add_zero, ← times_of_append, List.take_append_drop, times_of_cons]
    rfl
  | false =>
    have hps : q.push_snapshot s =
        ({ q with snapshots := q.snapshots.take q.length },
         q.snapshots.drop q.length, [s]) := by
      unfold Queue.push_snapshot
      simp [hacc]
    rw [hps, ← times_of_append, List.take_append_drop]
    exact add_comm _ _

/-- `push_seq` conserves timestamps. -/
lemma push_seq_times (l : List Snap) : ∀ q : Queue,
    times_of (q.push_seq l).1.snapshots + times_of (q.push_seq l).2.1
      + times_of (q.push_seq l).2.2
    = times_of l + times_of q.snapshots := by
  induction l with
  | nil => intro q; simp [Queue.push_seq, times_of]
  | cons s rest ih =>
    intro q
    have h1 := ih (q.push_snapshot s).1
    have h2 := push_snapshot_times q s
    simp only [Queue.push_seq, times_of_append]
    rw [times_of_cons s rest]
    set A := times_of ((q.push_snapshot s).1.push_seq rest).1.snapshots with hA
    set B := times_of ((q.push_snapshot s).1.push_seq rest).2.1 with hB
    set E := times_of ((q.push_snapshot s).1.push_seq rest).2.2 with hE
    set C := times_of (q.push_snapshot s).2.1 with hC
    set D := times_of (q.push_snapshot s).2.2 with hD
    set Q1 := times_of (q.push_snapshot s).1.snapshots with hQ1
    calc A + (B + C) + (D + E)
        = (A + B + E) + (C + D) := by abel
      _ = (times_of rest + Q1) + (C + D) := by rw [h1]
      _ = times_of rest + (Q1 + C + D) := by abel
      _ = times_of rest + (times_of [s] + times_of q.snapshots) := by rw [h2]
      _ = times_of [s] + times_of rest + times_of q.snapshots := by abel

/-- `push_snapshots` conserves timestamps. -/
lemma push_snapshots_times (q : Queue) (batch : List Snap) :
    times_of (q.push_snapshots batch).1.snapshots + times_of (q.push_snapshots batch).2.1
      + times_of (q.push_snapshots batch).2.2
    = times_of batch + times_of q.snapshots := by
  rw [push_snapshots_eq_push_seq, push_seq_times]
  congr 1
  simp only [times_of, List.map_reverse, Multiset.coe_reverse]

/-- The cascade of `Organizer.push`: the loop `for queue in self.queues:
propagated_snapshots = queue.push_snapshots(propagated_snapshots)`,
collecting the deletions performed by rejecting queues along the way.
Result: (updated queues, snapshots propagated out of the last queue,
snapshots deleted by rejection during the cascade). -/
def cascade : List Queue → List Snap → List Queue × List Snap × List Snap
  | [], batch => ([], batch, [])
  | q :: rest, batch =>
    let r := q.push_snapshots batch
    let rr := cascade rest r.2.1
    (r.1 :: rr.1, rr.2.1, r.2.2 ++ rr.2.2)

/-- `Organizer.push`: feed `(snapshot,)` into the first queue, cascade the
evictions through the pipeline, and delete whatever pops out of the last
queue.  Result: (updated queues, all snapshots deleted by the call). -/
def Organizer.push (queues : List Queue) (s : Snap) : List Queue × List Snap :=
  let r := cascade queues [s]
  (r.1, r.2.2 ++ r.2.1)

/-- Timestamps of all snapshots held by a pipeline of queues. -/
def queue_times : List Queue → Multiset Int
  | [] => 0
  | q :: rest => times_of q.snapshots + queue_times rest

lemma cascade_times (queues : List Queue) : ∀ batch : List Snap,
    queue_times (cascade queues batch).1 + times_of (cascade queues batch).2.1
      + times_of (cascade queues batch).2.2
    = times_of batch + queue_times queues := by
  induction queues with
  | nil => intro batch; simp [cascade, queue_times, times_of, Multiset.coe_nil]
  | cons q rest ih =>
    intro batch
    have h1 := ih (q.push_snapshots batch).2.1
    have h2 := push_snapshots_times q batch
    simp only [cascade, queue_times, times_of_append]
    set A := queue_times (cascade rest (q.push_snapshots batch).2.1).1 with hA
    set B := times_of (cascade rest (q.push_snapshots batch).2.1).2.1 with hB
    set E := times_of (cascade rest (q.push_snapshots batch).2.1).2.2 with hE
    set C := times_of (q.push_snapshots batch).2.2 with hC
    set Q1 := times_of (q.push_snapshots batch).1.snapshots with hQ1
    set P1 := times_of (q.push_snapshots batch).2.1 with hP1
    calc Q1 + A + B + (C + E)
        = (Q1 + C) + (A + B + E) := by abel
      _ = (Q1 + C) + (P1 + queue_times rest) := by rw [h1]
      _ = (Q1 + P1 + C) + queue_times rest := by abel
      _ = (times_of batch + times_of q.snapshots) + queue_times rest := by rw [h2]
      _ = times_of batch + (times_of q.snapshots + queue_times rest) := by abel

lemma cascade_length (queues : List Queue) : ∀ batch : List Snap,
    (cascade queues batch).1.length = queues.length := by
  induction queues with
  | nil => intro batch; rfl
  | cons q rest ih => intro batch; simp [cascade, ih]

/-- Claim C6: `Organizer.push` feeds the one-element batch into the first
queue, cascades each queue's evictions into the next queue in pipeline
order (that is the definition of `cascade`), and deletes what the last
queue evicts.  Consequently the timestamps are conserved: the snapshots
held by the updated pipeline together with the deleted snapshots are, as a
multiset, exactly the pushed snapshot plus the pipeline's previous content
— every pushed snapshot ends in exactly one queue or is deleted, and no
snapshot is duplicated or lost.  The pipeline keeps its queue count. -/
theorem organizer_push_conservation (queues : List Queue) (s : Snap) :
    queue_times (Organizer.push queues s).1 + times_of (Organizer.push queues s).2
        = times_of [s] + queue_times queues ∧
    (Organizer.push queues s).1.length = queues.length := by
  constructor
  · unfold Organizer.push
    rw [times_of_append]
    have h := cascade_times queues [s]
    rw [← h]
    abel
  · exact cascade_length queues [s]

/-- On-disk backup record of `history.py` (`Backup` namedtuple); the
formatted directory name is derived from queue and time and not needed
here. -/
structure Backup where
  queue : String
  time : Int
deriving DecidableEq, Repr

/-- `FolderHistory.backup_timestamp`: time of the newest backup (the
backups list is sorted newest first by `_find_backups`), `None` if there is
none. -/
def backup_timestamp (backups : List Backup) : Option Int :=
  backups.head?.map (fun b => b.time)

/-- `FolderHistory.srcdir_updated`:
`not self.backup_timestamp or self.backup_timestamp < self.srcdir_timestamp`. -/
def srcdir_updated (backups : List Backup) (srcT : Int) : Bool :=
  match backup_timestamp backups with
  | none => true
  | some t => decide (t < srcT)

/-- The guarded part of `FolderHistory.backup`: `if self.srcdir_updated:
self._link_source()`, where `_link_source` inserts the new backup (first
queue's name, source timestamp) at the front.  Returns the backups list and
whether a backup was created.  (`_update_queues` is a stub in `history.py`.) -/
def FolderHistory.backup_cycle (backups : List Backup) (srcT : Int) (queue0 : String) :
    List Backup × Bool :=
  if srcdir_updated backups srcT then ((⟨queue0, srcT⟩ : Backup) :: backups, true)
  else (backups, false)

/-- `Organizer.create_snapshot` (`psnapshot/snapshot.py`): unconditionally
builds the name from the first queue's name and the source directory's
newest modification time and hard-link-copies; `copyOk` stands for the
external copy succeeding (on failure the partial copy is removed and `None`
returned).  There is no comparison against the existing newest snapshot. -/
def Organizer.create_snapshot (queues : List Queue) (srcT : Int) (copyOk : Bool) : Option Snap :=
  match queues.head? with
  | none => none
  | some q0 => if copyOk then some ⟨q0.name, srcT⟩ else none

/-- `SnapshotController.create_snapshot` (`psnapshot/control.py`):
`snapshot = self.organizer.create_snapshot(); if snapshot:
self.organizer.push(snapshot)`.  Returns the push outcome (updated queues
and deletions) and whether a push happened. -/
def SnapshotController.create_snapshot (queues : List Queue) (srcT : Int) (copyOk : Bool) :
    (List Queue × List Snap) × Bool :=
  match Organizer.create_snapshot queues srcT copyOk with
  | some s => (Organizer.push queues s, true)
  | none => ((queues, []), false)

/-- Claim C7, evaluated at the failing input: with an existing snapshot at
time 100 and the source tree's newest file at time 50 (no file newer than
the newest snapshot), the psnapshot cycle still creates a snapshot and
still pushes it — the snapshot is then rejected by the first queue and
deleted — whereas the `history.py` guard (`srcdir_updated`), which the spec
describes, creates nothing.  `Organizer.snapshots_time` exists in the code
but is never consulted, so the creation guard the spec states is missing
from the psnapshot variant. -/
theorem create_snapshot_missing_guard :
    srcdir_updated [⟨"daily", 100⟩] 50 = false ∧
    FolderHistory.backup_cycle [⟨"daily", 100⟩] 50 "daily" = ([⟨"daily", 100⟩], false) ∧
    Organizer.create_snapshot [Queue.mk "daily" 1 7 [⟨"daily", 100⟩]] 50 true
        = some ⟨"daily", 50⟩ ∧
    (SnapshotController.create_snapshot [Queue.mk "daily" 1 7 [⟨"daily", 100⟩]] 50 true).2
        = true ∧
    (SnapshotController.create_snapshot [Queue.mk "daily" 1 7 [⟨"daily", 100⟩]] 50 true).1.2
        = [⟨"daily", 50⟩] := by
  decide

/-- Is a character a word character (the ASCII fragment of the regex
class `\w` used by the snapshot and queue-spec patterns). -/
def isWordChar (c : Char) : Bool :=
  c.isAlphanum || c == '_'

/-- Backup queue specification of `history.py` (`BackupQueueSpec`
namedtuple): name, minimum age in days, queue length. -/
structure BackupQueueSpec where
  name : String
  age : Nat
  length : Nat
deriving DecidableEq, Repr

/-- Nonempty and all word characters: the regex `^\w+$`
(`QUEUE_NAME_PATTERN`). -/
def word_ok (cs : List Char) : Bool :=
  !cs.isEmpty && cs.all isWordChar

/-- The loop of `FolderHistory._verify_queue_specs` with accumulator
`passthrough` (initially 1), then the final `passthrough > 0` check. -/
def verify_go : Nat → List BackupQueueSpec → Bool
  | p, [] => decide (0 < p)
  | p, spec :: rest =>
    word_ok spec.name.data && decide (p ≤ spec.age) && verify_go (spec.age * spec.length) rest

/-- `FolderHistory._verify_queue_specs`: `false` means the check raises a
`BackupQueueSpecError`. -/
def verify_queue_specs (specs : List BackupQueueSpec) : Bool :=
  !specs.isEmpty && verify_go 1 specs

lemma verify_go_sound (specs : List BackupQueueSpec) : ∀ p : Nat, verify_go p specs = true →
    List.Chain' (fun a b => a.age * a.length ≤ b.age) specs ∧
      (∀ l, specs.getLast? = some l → 0 < l.age * l.length) := by
  induction specs with
  | nil =>
    intro p _
    exact ⟨List.chain'_nil, by intro l hl; simp at hl⟩
  | cons s rest ih =>
    intro p h
    simp only [verify_go, Bool.and_eq_true, decide_eq_true_eq] at h
    obtain ⟨⟨hw, hp⟩, hrest⟩ := h
    cases rest with
    | nil =>
      refine ⟨List.chain'_singleton s, ?_⟩
      intro l hl
      simp only [List.getLast?_singleton, Option.some.injEq] at hl
      subst hl
      simpa [verify_go] using hrest
    | cons s2 rest2 =>
      have hrest2 := hrest
      simp only [verify_go, Bool.and_eq_true, decide_eq_true_eq] at hrest2
      have hr := ih (s.age * s.length) hrest
      refine ⟨List.chain'_cons.mpr ⟨hrest2.1.2, hr.1⟩, ?_⟩
      intro l hl
      rw [List.getLast?_cons_cons] at hl
      exact hr.2 l hl

/-- Claim C8 (amended): the two-tier configuration with tier-0 capacity 1,
interval 1 day and tier-1 capacity 1, interval 1 day is ACCEPTED by the
startup passthrough check (tier-1's interval of 1 day meets tier-0's
passthrough of `1*1 = 1` under the inclusive `>=`); in general a passing
check guarantees `interval_(i+1) >= interval_i * capacity_i` for every
consecutive pair of queues and a strictly positive passthrough time for the
last queue. -/
theorem verify_queue_specs_passthrough :
    verify_queue_specs [⟨"tier0", 1, 1⟩, ⟨"tier1", 1, 1⟩] = true ∧
    ∀ specs : List BackupQueueSpec, verify_queue_specs specs = true →
      (List.Chain' (fun a b => a.age * a.length ≤ b.age) specs ∧
        ∀ l, specs.getLast? = some l → 0 < l.age * l.length) := by
  constructor
  · decide
  · intro specs h
    unfold verify_queue_specs at h
    simp only [Bool.and_eq_true] at h
    exact verify_go_sound specs 1 h.2

/-- Witness for claim C8's amended theorem at the program's default
configuration `daily[7]+1, weekly[4]+7, monthly[3]+28`. -/
theorem verify_queue_specs_passthrough_witness :
    List.Chain' (fun a b => a.age * a.length ≤ b.age)
        ([⟨"daily", 1, 7⟩, ⟨"weekly", 7, 4⟩, ⟨"monthly", 28, 3⟩] : List BackupQueueSpec) ∧
      ∀ l, ([⟨"daily", 1, 7⟩, ⟨"weekly", 7, 4⟩,
          ⟨"monthly", 28, 3⟩] : List BackupQueueSpec).getLast? = some l →
        0 < l.age * l.length :=
  verify_queue_specs_passthrough.2
    [⟨"daily", 1, 7⟩, ⟨"weekly", 7, 4⟩, ⟨"monthly", 28, 3⟩] (by decide)

/-- Counterexample to claim C8 as stated: the check does NOT reject the
two-tier configuration with both capacities 1 and both intervals 1 day —
`_verify_queue_specs` passes it (1 >= 1 at each step, final passthrough
1 > 0), so no specification error is raised. -/
theorem verify_queue_specs_counterexample :
    verify_queue_specs [⟨"tier0", 1, 1⟩, ⟨"tier1", 1, 1⟩] ≠ false := by
  decide

/-- The character for a single decimal digit. -/
def digitChar (d : Nat) : Char :=
  Char.ofNat (48 + d)

/-- The numeric value of a decimal digit character (`int` on a digit). -/
def digitVal (c : Char) : Nat :=
  c.toNat - 48

/-- `int` on a string of decimal digits. -/
def toNatD (cs : List Char) : Nat :=
  cs.foldl (fun a c => 10 * a + digitVal c) 0

/-- A number formatted `%02d` (for numbers below 100). -/
def pad2 (n : Nat) : List Char :=
  [digitChar (n / 10 % 10), digitChar (n % 10)]

/-- A number formatted `%04d` (for numbers below 10000). -/
def pad4 (n : Nat) : List Char :=
  [digitChar (n / 1000 % 10), digitChar (n / 100 % 10), digitChar (n / 10 % 10),
    digitChar (n % 10)]

/-- A naive `datetime.datetime` with second resolution. -/
structure DateTime where
  year : Nat
  month : Nat
  day : Nat
  hour : Nat
  minute : Nat
  second : Nat
deriving DecidableEq, Repr

def isLeapYear (y : Nat) : Bool :=
  (y % 4 == 0 && y % 100 != 0) || y % 400 == 0

def daysInMonth (y m : Nat) : Nat :=
  if m == 2 then (if isLeapYear y then 29 else 28)
  else if m == 4 || m == 6 || m == 9 || m == 11 then 30
  else 31

/-- The argument ranges accepted by the `datetime.datetime` constructor
(`MINYEAR = 1`, `MAXYEAR = 9999`). -/
def DateTime.valid (t : DateTime) : Bool :=
  decide (1 ≤ t.year) && decide (t.year ≤ 9999) && decide (1 ≤ t.month)
    && decide (t.month ≤ 12) && decide (1 ≤ t.day)
    && decide (t.day ≤ daysInMonth t.year t.month) && decide (t.hour ≤ 23)
    && decide (t.minute ≤ 59) && decide (t.second ≤ 59)

/-- The fourteen digits `%Y%m%d%H%M%S` of `SNAPSHOT_NAME_FORMAT`,
zero-padded. -/
def stamp_chars (t : DateTime) : List Char :=
  pad4 t.year ++ pad2 t.month ++ pad2 t.day ++ pad2 t.hour ++ pad2 t.minute ++ pad2 t.second

/-- `Snapshot.build_name`: `'{queue}-{time:%Y%m%d%H%M%S}'`. -/
def Snapshot.build_name (queueName : String) (t : DateTime) : String :=
  ⟨queueName.data ++ '-' :: stamp_chars t⟩

/-- `Snapshot.parse_name` against `SNAPSHOT_NAME_PATTERN`
(`^(?P<queue>\w+)-(?P<timestamptext>\d{14})$`) on a character list: the
greedy `\w+` takes the maximal word prefix (no backtracking can help since
`-` is not a word character), then a literal `-`, then exactly fourteen
digits up to the anchor; the six two- or four-digit slices are converted
with `int` and fed to the `datetime` constructor, whose range check is
`DateTime.valid`.  `none` covers both the pattern mismatch
(`SnapshotDirError`) and an out-of-range date (`ValueError`). -/
def parse_name_chars (cs : List Char) : Option (List Char × DateTime) :=
  let qn := cs.takeWhile isWordChar
  let rest := cs.dropWhile isWordChar
  if qn = [] then none
  else if rest.head? = some '-' then
    let ds := rest.tail
    if ds.length = 14 ∧ ds.all Char.isDigit = true then
      let t : DateTime :=
        { year := toNatD (ds.take 4), month := toNatD ((ds.drop 4).take 2),
          day := toNatD ((ds.drop 6).take 2), hour := toNatD ((ds.drop 8).take 2),
          minute := toNatD ((ds.drop 10).take 2), second := toNatD ((ds.drop 12).take 2) }
      if t.valid then some (qn, t) else none
    else none
  else none

/-- `Snapshot.parse_name` on strings. -/
def Snapshot.parse_name (name : String) : Option (String × DateTime) :=
  (parse_name_chars name.data).map (fun r => (⟨r.1⟩, r.2))

lemma takeWhile_append_stop (p : Char → Bool) (l r : List Char) (x : Char)
    (hl : ∀ c ∈ l, p c = true) (hx : p x = false) :
    (l ++ x :: r).takeWhile p = l ∧ (l ++ x :: r).dropWhile p = x :: r := by
  induction l with
  | nil => simp [List.takeWhile_cons, List.dropWhile_cons, hx]
  | cons a as ih =>
    have ha : p a = true := hl a (List.mem_cons_self a as)
    have ih2 := ih fun c hc => hl c (List.mem_cons_of_mem a hc)
    simp [List.takeWhile_cons, List.dropWhile_cons, ha, ih2.1, ih2.2]

lemma digitVal_digitChar (d : Nat) (h : d < 10) : digitVal (digitChar d) = d := by
  interval_cases d <;> decide

lemma isDigit_digitChar_mod (n : Nat) : (digitChar (n % 10)).isDigit = true := by
  have h : n % 10 < 10 := Nat.mod_lt _ (by norm_num)
  interval_cases hm : n % 10 <;> decide

lemma toNatD_pad2 (n : Nat) (h : n ≤ 99) : toNatD (pad2 n) = n := by
  have h1 : n / 10 % 10 < 10 := Nat.mod_lt _ (by norm_num)
  have h2 : n % 10 < 10 := Nat.mod_lt _ (by norm_num)
  simp only [toNatD, pad2, List.foldl_cons, List.foldl_nil,
    digitVal_digitChar _ h1, digitVal_digitChar _ h2]
  omega

lemma toNatD_pad4 (n : Nat) (h : n ≤ 9999) : toNatD (pad4 n) = n := by
  have h1 : n / 1000 % 10 < 10 := Nat.mod_lt _ (by norm_num)
  have h2 : n / 100 % 10 < 10 := Nat.mod_lt _ (by norm_num)
  have h3 : n / 10 % 10 < 10 := Nat.mod_lt _ (by norm_num)
  have h4 : n % 10 < 10 := Nat.mod_lt _ (by norm_num)
  simp only [toNatD, pad4, List.foldl_cons, List.foldl_nil, digitVal_digitChar _ h1,
    digitVal_digitChar _ h2, digitVal_digitChar _ h3, digitVal_digitChar _ h4]
  omega

lemma stamp_chars_slices (t : DateTime) :
    (stamp_chars t).take 4 = pad4 t.year ∧
    ((stamp_chars t).drop 4).take 2 = pad2 t.month ∧
    ((stamp_chars t).drop 6).take 2 = pad2 t.day ∧
    ((stamp_chars t).drop 8).take 2 = pad2 t.hour ∧
    ((stamp_chars t).drop 10).take 2 = pad2 t.minute ∧
    ((stamp_chars t).drop 12).take 2 = pad2 t.second :=
  ⟨rfl, rfl, rfl, rfl, rfl, rfl⟩

lemma stamp_chars_digits (t : DateTime) : (stamp_chars t).all Char.isDigit = true := by
  simp [stamp_chars, pad4, pad2, isDigit_digitChar_mod]

lemma daysInMonth_le (y m : Nat) : daysInMonth y m ≤ 31 := by
  unfold daysInMonth
  split_ifs <;> norm_num

/-- Claim C9: for every queue name matching `^\w+$` (nonempty, all word
characters) and every valid second-resolution timestamp, parsing the
directory name built from them returns the same pair:
`parse_name (build_name q t) = some (q, t)`, where `build_name` produces
the zero-padded `queueName-YYYYMMDDHHMMSS` form. -/
theorem parse_build_name_round_trip (q : String) (t : DateTime)
    (hq1 : q.data ≠ []) (hq2 : q.data.all isWordChar = true) (ht : t.valid = true) :
    Snapshot.parse_name (Snapshot.build_name q t) = some (q, t) := by
  have hword : ∀ ch ∈ q.data, isWordChar ch = true := List.all_eq_true.mp hq2
  have hsplit := takeWhile_append_stop isWordChar q.data (stamp_chars t) '-' hword (by decide)
  have hvalid := ht
  simp only [DateTime.valid, Bool.and_eq_true, decide_eq_true_eq] at hvalid
  obtain ⟨⟨⟨⟨⟨⟨⟨⟨hy1, hy2⟩, hm1⟩, hm2⟩, hd1⟩, hd2⟩, hh⟩, hmin⟩, hsec⟩ := hvalid
  have hchars : parse_name_chars (q.data ++ '-' :: stamp_chars t) = some (q.data, t) := by
    unfold parse_name_chars
    simp only [hsplit.1, hsplit.2, List.head?_cons, List.tail_cons]
    rw [if_neg hq1]
    simp only [if_true]
    have hcond : (stamp_chars t).length = 14 ∧ (stamp_chars t).all Char.isDigit = true :=
      ⟨rfl, stamp_chars_digits t⟩
    rw [if_pos hcond]
    have hsl := stamp_chars_slices t
    rw [hsl.1, hsl.2.1, hsl.2.2.1, hsl.2.2.2.1, hsl.2.2.2.2.1, hsl.2.2.2.2.2,
      toNatD_pad4 _ hy2,
      toNatD_pad2 _ (le_trans hm2 (by norm_num)),
      toNatD_pad2 _ (le_trans hd2 (le_trans (daysInMonth_le t.year t.month) (by norm_num))),
      toNatD_pad2 _ (le_trans hh (by norm_num)),
      toNatD_pad2 _ (le_trans hmin (by norm_num)),
      toNatD_pad2 _ (le_trans hsec (by norm_num))]
    rw [if_pos ht]
  unfold Snapshot.parse_name
  have hdata : (Snapshot.build_name q t).data = q.data ++ '-' :: stamp_chars t := rfl
  rw [hdata, hchars]
  rfl

/-- Witness for claim C9's theorem at a concrete input. -/
theorem parse_build_name_round_trip_witness :
    Snapshot.parse_name (Snapshot.build_name "daily" ⟨2015, 1, 3, 0, 0, 0⟩)
      = some ("daily", ⟨2015, 1, 3, 0, 0, 0⟩) :=
  parse_build_name_round_trip "daily" ⟨2015, 1, 3, 0, 0, 0⟩
    (by decide) (by decide) (by decide)

/-- The decimal digit characters of a number, most significant first (the
text the textual queue specification carries for `length` and `delta`). -/
def natChars (n : Nat) : List Char :=
  if _h : n < 10 then [digitChar n]
  else natChars (n / 10) ++ [digitChar (n % 10)]
termination_by n
decreasing_by
  simp_wf
  exact Nat.div_lt_self (by omega) (by norm_num)

lemma isDigit_digitChar (d : Nat) (h : d < 10) : (digitChar d).isDigit = true := by
  interval_cases d <;> decide

lemma natChars_ne_nil (n : Nat) : natChars n ≠ [] := by
  unfold natChars
  split_ifs <;> simp

lemma natChars_all_digit (n : Nat) : (natChars n).all Char.isDigit = true := by
  induction n using Nat.strong_induction_on with
  | _ n ih =>
    unfold natChars
    split_ifs with h
    · simp [isDigit_digitChar n h]
    · rw [List.all_append]
      have hrec := ih (n / 10) (Nat.div_lt_self (by omega) (by norm_num))
      simp [hrec, isDigit_digitChar_mod]

lemma toNatD_append_digit (l : List Char) (c : Char) :
    toNatD (l ++ [c]) = 10 * toNatD l + digitVal c := by
  simp [toNatD, List.foldl_append]

lemma toNatD_natChars (n : Nat) : toNatD (natChars n) = n := by
  induction n using Nat.strong_induction_on with
  | _ n ih =>
    unfold natChars
    split_ifs with h
    · simp [toNatD, digitVal_digitChar n h]
    · rw [toNatD_append_digit, ih (n / 10) (Nat.div_lt_self (by omega) (by norm_num)),
        digitVal_digitChar _ (Nat.mod_lt _ (by norm_num))]
      omega

/-- `Queue.from_textual_spec` against `QUEUE_TEXT_PATTERN`
(`^(?P<name>\w+)\[(?P<length>\d+)\]\+(?P<delta>\d+)$`) on a character
list.  The greedy groups are maximal runs (neither `[` nor `]` is a word
or digit character, so no backtracking applies); the parsed queue is
`cls(name, delta, length)` with the numbers converted by `int` — with no
range validation whatsoever.  `none` models the raised `AttributeError`
(including the initial falsy-`textspec` check). -/
def from_textual_spec_chars (cs : List Char) : Option Queue :=
  if cs = [] then none
  else
    let name := cs.takeWhile isWordChar
    let r1 := cs.dropWhile isWordChar
    if name = [] then none
    else if r1.head? = some '[' then
      let r2 := r1.tail
      let lenD := r2.takeWhile Char.isDigit
      let r3 := r2.dropWhile Char.isDigit
      if lenD = [] then none
      else if r3.head? = some ']' then
        if r3.tail.head? = some '+' then
          let deltaD := r3.tail.tail
          if deltaD ≠ [] ∧ deltaD.all Char.isDigit = true then
            some ⟨⟨name⟩, toNatD deltaD, toNatD lenD, []⟩
          else none
        else none
      else none
    else none

/-- `Queue.from_textual_spec` on strings. -/
def Queue.from_textual_spec (textspec : String) : Option Queue :=
  from_textual_spec_chars textspec.data

/-- Claim C10: `from_textual_spec` performs no positivity validation — the
spec `q[0]+0` parses successfully into a queue named `q` with capacity 0
and interval 0 days; such a zero-interval queue accepts a snapshot whose
timestamp equals the current newest member's; and in general every input
of the shape `name[digits]+digits` (name nonempty, word characters)
parses successfully, whatever the numbers are. -/
theorem from_textual_spec_no_validation :
    Queue.from_textual_spec "q[0]+0" = some ⟨"q", 0, 0, []⟩ ∧
    (Queue.mk "q" 0 0 [⟨"q", 100⟩]).accepts ⟨"q", 100⟩ = true ∧
    ∀ (name : List Char) (cap delta : Nat), name ≠ [] → name.all isWordChar = true →
      from_textual_spec_chars
          (name ++ '[' :: (natChars cap ++ ']' :: '+' :: natChars delta))
        = some ⟨⟨name⟩, delta, cap, []⟩ := by
  refine ⟨by decide, by decide, ?_⟩
  intro name cap delta h1 h2
  have hword : ∀ c ∈ name, isWordChar c = true := List.all_eq_true.mp h2
  have hsp := takeWhile_append_stop isWordChar name
    (natChars cap ++ ']' :: '+' :: natChars delta) '[' hword (by decide)
  have hdig : ∀ c ∈ natChars cap, Char.isDigit c = true :=
    List.all_eq_true.mp (natChars_all_digit cap)
  have hsp2 := takeWhile_append_stop Char.isDigit (natChars cap)
    ('+' :: natChars delta) ']' hdig (by decide)
  have hne : name ++ '[' :: (natChars cap ++ ']' :: '+' :: natChars delta) ≠ [] := by
    simp
  unfold from_textual_spec_chars
  simp only [hsp.1, hsp.2, List.head?_cons, List.tail_cons, hsp2.1, hsp2.2]
  rw [if_neg hne, if_neg h1]
  simp only [if_true]
  rw [if_neg (natChars_ne_nil cap)]
  rw [if_pos ⟨natChars_ne_nil delta, natChars_all_digit delta⟩,
    toNatD_natChars, toNatD_natChars]

/-- Witness for claim C10's theorem at a concrete input,
`daily[7]+1`. -/
theorem from_textual_spec_no_validation_witness :
    from_textual_spec_chars
        (['d', 'a', 'i', 'l', 'y'] ++ '[' :: (natChars 7 ++ ']' :: '+' :: natChars 1))
      = some ⟨⟨['d', 'a', 'i', 'l', 'y']⟩, 1, 7, []⟩ :=
  from_textual_spec_no_validation.2.2 ['d', 'a', 'i', 'l', 'y'] 7 1 (by decide) (by decide)
